import Mathlib

/-!
Verification of the polling scheduler and change-detection pipeline of
`rss-download.go` (package main), as a shallow embedding in Lean.

Time model: Go `time.Time` instants in the local timezone are modelled as
`Int` seconds since an epoch chosen to be a Sunday midnight in local time,
with a fixed UTC offset, so every calendar day lasts 86400 seconds and every
week 604800 seconds.  Under that model:

* `t.Weekday()` is `t / 86400 % 7` (0 = Sunday, matching the Go numbering);
* `time.Date(t.Year(), t.Month(), t.Day()+d, 0, 0, sec, 0, time.Local)` is
  `t / 86400 * 86400 + d * 86400 + sec`: `time.Date` normalizes
  out-of-range fields, which in absolute seconds is plain addition;
* `t.AddDate(0, 0, 7)` is `t + 7 * 86400`;
* `u.Sub(v).Seconds()`, `u.Before(v)`, `u.After(v)`, `u.Equal(v)` become
  `u - v`, `u < v`, `v < u`, `u = v`.

Division `/` and remainder `%` on `Int` are Euclidean (floor division for
the positive literal divisors used here), the correct reading of calendar
arithmetic.  The `float64` computation in `firstCheckTime` is modelled
exactly: its inputs are whole seconds and the flag intervals, far below the
2^53 threshold where `float64` arithmetic on integers stops being exact.
-/

namespace RssDownload

/-- Command-line flags read by the scheduler (`check_interval`,
`rapid_check_interval`, `rapid_check_duration`), in seconds. -/
structure Config where
  checkInterval : Int
  rapidCheckInterval : Int
  rapidCheckDuration : Int
deriving DecidableEq

/-- Go `fromTime.Weekday()` under the fixed-offset model (0 = Sunday). -/
def weekday (t : Int) : Int :=
  t / 86400 % 7

/-- Midnight (00:00:00 local) of the calendar day containing `t`, that is,
`time.Date(t.Year(), t.Month(), t.Day(), 0, 0, 0, 0, time.Local)`. -/
def midnight (t : Int) : Int :=
  t / 86400 * 86400

/-- Function `lastRapidStartTime` from `rss-download.go`: day offset from the
configured weekday, normalized to be non-positive, with one extra week of
rollback when today is the anchor day but `fromTime` is still before the
anchor second (`fromTime.Before(time.Date(..., 0, 0, seconds, ...))`). -/
def lastRapidStartTime (fromTime dayOfWeek seconds : Int) : Int :=
  let dayDiff0 := dayOfWeek - weekday fromTime
  let dayDiff1 := if 0 < dayDiff0 then dayDiff0 - 7 else dayDiff0
  let dayDiff :=
    if dayDiff1 = 0 ∧ fromTime < midnight fromTime + seconds then dayDiff1 - 7 else dayDiff1
  midnight fromTime + dayDiff * 86400 + seconds

/-- Function `nextRapidStartTime` from `rss-download.go`, that is,
`lastRapidStartTime(fromTime.AddDate(0, 0, 7), dayOfWeek, seconds)`. -/
def nextRapidStartTime (fromTime dayOfWeek seconds : Int) : Int :=
  lastRapidStartTime (fromTime + 7 * 86400) dayOfWeek seconds

/-- Function `isRapid` from `rss-download.go`, that is,
`fromTime.Equal(rapidStartTime) || (fromTime.After(rapidStartTime) &&
fromTime.Before(rapidStartTime.Add(rapidCheckDuration)))`. -/
def isRapid (cfg : Config) (fromTime dayOfWeek seconds : Int) : Bool :=
  let rapidStartTime := lastRapidStartTime fromTime dayOfWeek seconds
  decide (fromTime = rapidStartTime ∨
    (rapidStartTime < fromTime ∧ fromTime < rapidStartTime + cfg.rapidCheckDuration))

/-- Function `nextCheckTime` from `rss-download.go`: advance by the active
interval, then clamp down to `nextRapidStartTime(lastCheckTime, ...)` when
the advanced instant is strictly after it. -/
def nextCheckTime (cfg : Config) (lastCheckTime dayOfWeek seconds : Int) : Int :=
  let advanced :=
    if isRapid cfg lastCheckTime dayOfWeek seconds then
      lastCheckTime + cfg.rapidCheckInterval
    else
      lastCheckTime + cfg.checkInterval
  let nextRapidTime := nextRapidStartTime lastCheckTime dayOfWeek seconds
  if nextRapidTime < advanced then nextRapidTime else advanced

/-- Exact model of `math.Ceil(a / b)` for integer `a` and positive integer
`b` computed in `float64` (exact for the magnitudes involved). -/
def ceilDiv (a b : Int) : Int :=
  -(-a / b)

/-- Function `firstCheckTime` from `rss-download.go`: grid base at the last
rapid start (shifted by the rapid duration outside the rapid window), offset
rounded up to the next multiple of the active interval, clamped down to
`nextRapidStartTime(startTime, ...)`. -/
def firstCheckTime (cfg : Config) (startTime dayOfWeek seconds : Int) : Int :=
  let baseTime0 := lastRapidStartTime startTime dayOfWeek seconds
  let rapid := isRapid cfg startTime dayOfWeek seconds
  let baseTime := if rapid then baseTime0 else baseTime0 + cfg.rapidCheckDuration
  let currentCheckInterval := if rapid then cfg.rapidCheckInterval else cfg.checkInterval
  let secondsOffsetFromBase := startTime - baseTime
  let nextCheckOffsetFromBase :=
    currentCheckInterval * ceilDiv secondsOffsetFromBase currentCheckInterval
  let next := baseTime + nextCheckOffsetFromBase
  let nextRapidTime := nextRapidStartTime startTime dayOfWeek seconds
  if nextRapidTime < next then nextRapidTime else next

/-- Grid base used by `firstCheckTime`: the last rapid start inside the
rapid window, the end of that window (start of the normal grid) outside. -/
def gridBase (cfg : Config) (t dayOfWeek seconds : Int) : Int :=
  if isRapid cfg t dayOfWeek seconds then lastRapidStartTime t dayOfWeek seconds
  else lastRapidStartTime t dayOfWeek seconds + cfg.rapidCheckDuration

/-- Active check interval used by `firstCheckTime`. -/
def gridInterval (cfg : Config) (t dayOfWeek seconds : Int) : Int :=
  if isRapid cfg t dayOfWeek seconds then cfg.rapidCheckInterval else cfg.checkInterval

/-- One RSS item as the watcher sees it (`feed.Item[i].Title`,
`feed.Item[i].Link`), newest first. -/
structure Item where
  Title : String
  Link : String
deriving DecidableEq

/-- Type `updatedTitleMessage` from `rss-download.go`: the event a watcher
sends on the shared channel when the newest title of a feed changes. -/
structure updatedTitleMessage where
  Name : String
  Title : String
deriving DecidableEq

/-- Download-dispatch loop of `watchFeed`: walk the fetched items
newest-first, stop at the first title equal to `lastTitle`, and schedule a
download for every item before that point. -/
def newItems (items : List Item) (lastTitle : String) : List Item :=
  match items with
  | [] => []
  | it :: rest =>
    if it.Title = lastTitle then [] else it :: newItems rest lastTitle

/-- Body of the successful-fetch branch of `watchFeed`: the scheduled
downloads, the resulting in-memory `lastTitle`, and the emitted
`updatedTitleMessage`s (the message is built from `lastTitle` after the
assignment `lastTitle = newTitle`, so it carries the updated value). -/
def processItems (name : String) (items : List Item) (lastTitle : String) :
    List Item × String × List updatedTitleMessage :=
  let downloads := newItems items lastTitle
  match items with
  | [] => (downloads, lastTitle, [])
  | it :: _ =>
    if lastTitle ≠ it.Title then
      (downloads, it.Title, [⟨name, it.Title⟩])
    else
      (downloads, lastTitle, [])

/-- Per-feed mutable state of one `watchFeed` loop iteration. -/
structure WatchState where
  checkTime : Int
  lastTitle : String
deriving DecidableEq

/-- One iteration of the main loop of `watchFeed`: the next check time is
computed from the planned check time before the fetch outcome is known;
`none` models `rss.Read` failing, `some items` a successful fetch.  Returns
the new state, the scheduled downloads and the emitted messages. -/
def watchStep (cfg : Config) (dayOfWeek seconds : Int) (name : String) (st : WatchState)
    (fetched : Option (List Item)) : WatchState × List Item × List updatedTitleMessage :=
  let checkTime := nextCheckTime cfg st.checkTime dayOfWeek seconds
  match fetched with
  | none => (⟨checkTime, st.lastTitle⟩, [], [])
  | some items =>
    let r := processItems name items st.lastTitle
    (⟨checkTime, r.2.1⟩, r.1, r.2.2)

/-- Index of the last `'/'` in a character list, as
`strings.LastIndex(url, "/")` (with `none` for the Go value `-1`). -/
def lastSlashIndex : List Char → Option Nat
  | [] => none
  | c :: rest =>
    match lastSlashIndex rest with
    | some i => some (i + 1)
    | none => if c = '/' then some 0 else none

/-- Pure filename-extraction stage of `downloadUrl`, which runs before any
network or filesystem operation: error on a URL with no `'/'` or with
nothing after the last `'/'`, otherwise the trailing segment
`url[lastSeparatorIndex+1:]` that is then joined to the target directory. -/
def downloadUrl (url : List Char) : Except String (List Char) :=
  match lastSlashIndex url with
  | none => Except.error "malformed url (no slash!?)"
  | some lastSeparatorIndex =>
    let filename := url.drop (lastSeparatorIndex + 1)
    if filename.length = 0 then Except.error "malformed url (no filename)"
    else Except.ok filename

/-! ### Rapid-window arithmetic lemmas -/

theorem lastRapidStartTime_le (t dayOfWeek seconds : Int)
    (hw0 : 0 ≤ dayOfWeek) (hw6 : dayOfWeek ≤ 6) (hs0 : 0 ≤ seconds) (hs : seconds < 86400) :
    lastRapidStartTime t dayOfWeek seconds ≤ t := by
  simp only [lastRapidStartTime, weekday, midnight]
  split_ifs <;> omega

theorem lt_lastRapidStartTime_add_week (t dayOfWeek seconds : Int)
    (hw0 : 0 ≤ dayOfWeek) (hw6 : dayOfWeek ≤ 6) (hs0 : 0 ≤ seconds) (hs : seconds < 86400) :
    t < lastRapidStartTime t dayOfWeek seconds + 604800 := by
  simp only [lastRapidStartTime, weekday, midnight]
  split_ifs <;> omega

theorem lastRapidStartTime_emod (t dayOfWeek seconds : Int)
    (hw0 : 0 ≤ dayOfWeek) (hw6 : dayOfWeek ≤ 6) (hs0 : 0 ≤ seconds) (hs : seconds < 86400) :
    lastRapidStartTime t dayOfWeek seconds % 604800 = dayOfWeek * 86400 + seconds := by
  simp only [lastRapidStartTime, weekday, midnight]
  split_ifs <;> omega

theorem nextRapidStartTime_eq (t dayOfWeek seconds : Int) :
    nextRapidStartTime t dayOfWeek seconds = lastRapidStartTime t dayOfWeek seconds + 604800 := by
  simp only [nextRapidStartTime, lastRapidStartTime, weekday, midnight]
  split_ifs <;> omega

theorem lastRapidStartTime_unique (t dayOfWeek seconds a : Int)
    (hw0 : 0 ≤ dayOfWeek) (hw6 : dayOfWeek ≤ 6) (hs0 : 0 ≤ seconds) (hs : seconds < 86400)
    (ha : a % 604800 = dayOfWeek * 86400 + seconds) (h1 : a ≤ t) (h2 : t < a + 604800) :
    lastRapidStartTime t dayOfWeek seconds = a := by
  have k1 := lastRapidStartTime_le t dayOfWeek seconds hw0 hw6 hs0 hs
  have k2 := lt_lastRapidStartTime_add_week t dayOfWeek seconds hw0 hw6 hs0 hs
  have k3 := lastRapidStartTime_emod t dayOfWeek seconds hw0 hw6 hs0 hs
  omega

theorem le_mul_ceilDiv (a b : Int) (hb : 0 < b) : a ≤ b * ceilDiv a b := by
  have h1 : b * ((-a) / b) + (-a) % b = -a := Int.ediv_add_emod (-a) b
  have h2 : 0 ≤ (-a) % b := Int.emod_nonneg (-a) (by omega)
  have h3 : b * ceilDiv a b = a + (-a) % b := by
    simp only [ceilDiv, mul_neg]
    linarith [h1]
  linarith [h2, h3]

theorem isRapid_eq_true_iff (cfg : Config) (t dayOfWeek seconds : Int)
    (hd0 : 0 < cfg.rapidCheckDuration)
    (hw0 : 0 ≤ dayOfWeek) (hw6 : dayOfWeek ≤ 6) (hs0 : 0 ≤ seconds) (hs : seconds < 86400) :
    isRapid cfg t dayOfWeek seconds = true ↔
      lastRapidStartTime t dayOfWeek seconds ≤ t ∧
        t < lastRapidStartTime t dayOfWeek seconds + cfg.rapidCheckDuration := by
  have k1 := lastRapidStartTime_le t dayOfWeek seconds hw0 hw6 hs0 hs
  simp only [isRapid, decide_eq_true_eq]
  omega

/-- Claim C1: `nextCheckTime` advances `lastCheck` by the rapid interval inside the
rapid window and by the normal interval outside it, clamped down to
`nextRapidStartTime(lastCheck, ...)` whenever the advanced instant is after it;
in particular the result is never strictly after `nextRapidStartTime(lastCheck, ...)`. -/
theorem nextCheckTime_clamped (cfg : Config) (lastCheck dayOfWeek seconds : Int) :
    nextCheckTime cfg lastCheck dayOfWeek seconds =
      min (if isRapid cfg lastCheck dayOfWeek seconds then lastCheck + cfg.rapidCheckInterval
          else lastCheck + cfg.checkInterval)
        (nextRapidStartTime lastCheck dayOfWeek seconds) ∧
    nextCheckTime cfg lastCheck dayOfWeek seconds ≤
      nextRapidStartTime lastCheck dayOfWeek seconds := by
  simp only [nextCheckTime]
  split_ifs <;> omega

/-- Claim C2: `isRapid(reference, ...)` holds iff `reference` lies in the half-open
window `[lastRapidStart, lastRapidStart + rapidDuration)`; in particular it is true
at exactly the window start and false at exactly its end. -/
theorem isRapid_window_iff (cfg : Config) (t dayOfWeek seconds : Int)
    (hd0 : 0 < cfg.rapidCheckDuration) (hdW : cfg.rapidCheckDuration < 604800)
    (hw0 : 0 ≤ dayOfWeek) (hw6 : dayOfWeek ≤ 6) (hs0 : 0 ≤ seconds) (hs : seconds < 86400) :
    (isRapid cfg t dayOfWeek seconds = true ↔
      lastRapidStartTime t dayOfWeek seconds ≤ t ∧
        t < lastRapidStartTime t dayOfWeek seconds + cfg.rapidCheckDuration) ∧
    isRapid cfg (lastRapidStartTime t dayOfWeek seconds) dayOfWeek seconds = true ∧
    isRapid cfg (lastRapidStartTime t dayOfWeek seconds + cfg.rapidCheckDuration) dayOfWeek
      seconds = false := by
  have k3 := lastRapidStartTime_emod t dayOfWeek seconds hw0 hw6 hs0 hs
  have hfix : lastRapidStartTime (lastRapidStartTime t dayOfWeek seconds) dayOfWeek seconds =
      lastRapidStartTime t dayOfWeek seconds :=
    lastRapidStartTime_unique _ dayOfWeek seconds _ hw0 hw6 hs0 hs k3 le_rfl (by omega)
  have hend : lastRapidStartTime
      (lastRapidStartTime t dayOfWeek seconds + cfg.rapidCheckDuration) dayOfWeek seconds =
      lastRapidStartTime t dayOfWeek seconds :=
    lastRapidStartTime_unique _ dayOfWeek seconds _ hw0 hw6 hs0 hs k3 (by omega) (by omega)
  refine ⟨isRapid_eq_true_iff cfg t dayOfWeek seconds hd0 hw0 hw6 hs0 hs, ?_, ?_⟩
  · simp only [isRapid, hfix, decide_eq_true_eq]
    exact Or.inl trivial
  · simp only [isRapid, decide_eq_false_iff_not]
    rw [hend]
    omega

/-- Claim C3: `lastRapidStartTime` is the most recent occurrence of the weekly
`(dayOfWeek, anchorSecond)` anchor at or before the reference: it is at or before
the reference, within one week of it, falls on the configured weekday at the
configured second of the day, and no anchor occurrence after it is at or before
the reference; moreover `nextRapidStartTime` is exactly one week later. -/
theorem lastRapidStartTime_spec (t dayOfWeek seconds : Int)
    (hw0 : 0 ≤ dayOfWeek) (hw6 : dayOfWeek ≤ 6) (hs0 : 0 ≤ seconds) (hs : seconds < 86400) :
    lastRapidStartTime t dayOfWeek seconds ≤ t ∧
    t < lastRapidStartTime t dayOfWeek seconds + 7 * 86400 ∧
    weekday (lastRapidStartTime t dayOfWeek seconds) = dayOfWeek ∧
    lastRapidStartTime t dayOfWeek seconds % 86400 = seconds ∧
    (∀ a : Int, weekday a = dayOfWeek → a % 86400 = seconds → a ≤ t →
      a ≤ lastRapidStartTime t dayOfWeek seconds) ∧
    nextRapidStartTime t dayOfWeek seconds =
      lastRapidStartTime t dayOfWeek seconds + 7 * 86400 := by
  have k1 := lastRapidStartTime_le t dayOfWeek seconds hw0 hw6 hs0 hs
  have k2 := lt_lastRapidStartTime_add_week t dayOfWeek seconds hw0 hw6 hs0 hs
  have k3 := lastRapidStartTime_emod t dayOfWeek seconds hw0 hw6 hs0 hs
  have k4 := nextRapidStartTime_eq t dayOfWeek seconds
  refine ⟨k1, by omega, ?_, by omega, ?_, by omega⟩
  · simp only [weekday]
    omega
  · intro a ha1 ha2 hat
    simp only [weekday] at ha1
    omega

theorem firstCheckTime_eq_min (cfg : Config) (t dayOfWeek seconds : Int) :
    firstCheckTime cfg t dayOfWeek seconds =
      min (nextRapidStartTime t dayOfWeek seconds)
        (gridBase cfg t dayOfWeek seconds +
          gridInterval cfg t dayOfWeek seconds *
            ceilDiv (t - gridBase cfg t dayOfWeek seconds)
              (gridInterval cfg t dayOfWeek seconds)) := by
  simp only [firstCheckTime, gridBase, gridInterval]
  split_ifs <;> omega

/-- Claim C4: `firstCheckTime` is the grid-aligned instant: the elapsed time since
the grid base (the last rapid start, shifted to the end of the window outside the
rapid window) is rounded up to the next multiple of the active interval and the
result is clamped down to `nextRapidStartTime`; consequently any two start instants
with the same grid base, the same rapid status and the same rounded-up multiple
yield the same first check time. -/
theorem firstCheckTime_grid (cfg : Config) (dayOfWeek seconds t1 t2 : Int)
    (hbase : lastRapidStartTime t1 dayOfWeek seconds = lastRapidStartTime t2 dayOfWeek seconds)
    (hrapid : isRapid cfg t1 dayOfWeek seconds = isRapid cfg t2 dayOfWeek seconds)
    (hceil :
      ceilDiv (t1 - gridBase cfg t1 dayOfWeek seconds) (gridInterval cfg t1 dayOfWeek seconds) =
      ceilDiv (t2 - gridBase cfg t2 dayOfWeek seconds) (gridInterval cfg t2 dayOfWeek seconds)) :
    firstCheckTime cfg t1 dayOfWeek seconds =
      min (nextRapidStartTime t1 dayOfWeek seconds)
        (gridBase cfg t1 dayOfWeek seconds +
          gridInterval cfg t1 dayOfWeek seconds *
            ceilDiv (t1 - gridBase cfg t1 dayOfWeek seconds)
              (gridInterval cfg t1 dayOfWeek seconds)) ∧
    firstCheckTime cfg t1 dayOfWeek seconds = firstCheckTime cfg t2 dayOfWeek seconds := by
  have hb : gridBase cfg t1 dayOfWeek seconds = gridBase cfg t2 dayOfWeek seconds := by
    simp only [gridBase, hrapid, hbase]
  have hi : gridInterval cfg t1 dayOfWeek seconds = gridInterval cfg t2 dayOfWeek seconds := by
    simp only [gridInterval, hrapid]
  have hnr : nextRapidStartTime t1 dayOfWeek seconds = nextRapidStartTime t2 dayOfWeek seconds := by
    rw [nextRapidStartTime_eq, nextRapidStartTime_eq, hbase]
  refine ⟨firstCheckTime_eq_min cfg t1 dayOfWeek seconds, ?_⟩
  rw [firstCheckTime_eq_min, firstCheckTime_eq_min, hceil, hb, hi, hnr]

/-- Claim C10: with positive rapid interval, normal interval and rapid duration,
`nextCheckTime` is strictly after the last check instant and `firstCheckTime` is at
or after the start instant, so planned check instants never move into the past. -/
theorem scheduler_progress (cfg : Config) (t dayOfWeek seconds : Int)
    (hri : 0 < cfg.rapidCheckInterval) (hci : 0 < cfg.checkInterval)
    (hd0 : 0 < cfg.rapidCheckDuration)
    (hw0 : 0 ≤ dayOfWeek) (hw6 : dayOfWeek ≤ 6) (hs0 : 0 ≤ seconds) (hs : seconds < 86400) :
    t < nextCheckTime cfg t dayOfWeek seconds ∧ t ≤ firstCheckTime cfg t dayOfWeek seconds := by
  have k2 := lt_lastRapidStartTime_add_week t dayOfWeek seconds hw0 hw6 hs0 hs
  have k4 := nextRapidStartTime_eq t dayOfWeek seconds
  have hgi : 0 < gridInterval cfg t dayOfWeek seconds := by
    simp only [gridInterval]
    split_ifs <;> omega
  have hle := le_mul_ceilDiv (t - gridBase cfg t dayOfWeek seconds)
    (gridInterval cfg t dayOfWeek seconds) hgi
  constructor
  · simp only [nextCheckTime]
    split_ifs <;> omega
  · rw [firstCheckTime_eq_min]
    generalize gridInterval cfg t dayOfWeek seconds *
      ceilDiv (t - gridBase cfg t dayOfWeek seconds) (gridInterval cfg t dayOfWeek seconds) = m
      at hle ⊢
    omega

/-! ### Change-detection pipeline -/

/-- Claim C5: the items scheduled for download are exactly the longest initial
segment of the fetched (newest-first) list whose titles all differ from the stored
`lastTitle` — the scan stops at the first matching title — and when no title
matches, every fetched item is scheduled. -/
theorem newItems_takeWhile (items : List Item) (lastTitle : String) :
    newItems items lastTitle = items.takeWhile (fun it => !(it.Title == lastTitle)) ∧
    ((∀ it ∈ items, it.Title ≠ lastTitle) → newItems items lastTitle = items) := by
  constructor
  · induction items with
    | nil => rfl
    | cons it rest ih =>
      rw [List.takeWhile_cons]
      by_cases h : it.Title = lastTitle
      · simp [newItems, h]
      · simp only [newItems, if_neg h]
        simp [h, ih]
  · intro hall
    induction items with
    | nil => rfl
    | cons it rest ih =>
      have h1 : it.Title ≠ lastTitle := hall it (List.mem_cons_self it rest)
      simp only [newItems, if_neg h1]
      rw [ih fun x hx => hall x (List.mem_cons_of_mem it hx)]

/-- Claim C6: after a successful fetch, exactly one `updatedTitleMessage` carrying
the title of the newest item is emitted, and the in-memory `lastTitle` becomes that
title, precisely when the fetched list is non-empty and the title of its first item
differs from the stored `lastTitle`; every emitted message carries the feed name
and the already-updated in-memory title. -/
theorem processItems_titleEvent (name : String) (items : List Item) (lastTitle : String) :
    (∀ it rest, items = it :: rest → it.Title ≠ lastTitle →
      (processItems name items lastTitle).2.1 = it.Title ∧
        (processItems name items lastTitle).2.2 = [⟨name, it.Title⟩]) ∧
    (∀ it rest, items = it :: rest → it.Title = lastTitle →
      (processItems name items lastTitle).2.1 = lastTitle ∧
        (processItems name items lastTitle).2.2 = []) ∧
    (items = [] → (processItems name items lastTitle).2.1 = lastTitle ∧
      (processItems name items lastTitle).2.2 = []) ∧
    (∀ m ∈ (processItems name items lastTitle).2.2,
      m.Name = name ∧ m.Title = (processItems name items lastTitle).2.1) := by
  refine ⟨?_, ?_, ?_, ?_⟩
  · rintro it rest rfl hne
    have h : lastTitle ≠ it.Title := fun h => hne h.symm
    simp [processItems, h]
  · rintro it rest rfl heq
    simp [processItems, heq]
  · rintro rfl
    simp [processItems]
  · intro m hm
    match items with
    | [] => simp [processItems] at hm
    | it :: rest =>
      by_cases h : lastTitle = it.Title
      · simp [processItems, h] at hm
      · simp only [processItems, if_pos h] at hm ⊢
        rw [List.mem_singleton] at hm
        subst hm
        exact ⟨rfl, rfl⟩

/-- Claim C7: a loop iteration whose fetch fails changes nothing but the schedule:
`lastTitle` is unchanged, no download is scheduled, no message is emitted, and the
next check time is computed exactly as in an iteration whose fetch succeeds. -/
theorem watchStep_fetchFailure_frame (cfg : Config) (dayOfWeek seconds : Int) (name : String)
    (st : WatchState) :
    (watchStep cfg dayOfWeek seconds name st none).1.lastTitle = st.lastTitle ∧
    (watchStep cfg dayOfWeek seconds name st none).2.1 = [] ∧
    (watchStep cfg dayOfWeek seconds name st none).2.2 = [] ∧
    (watchStep cfg dayOfWeek seconds name st none).1.checkTime =
      nextCheckTime cfg st.checkTime dayOfWeek seconds ∧
    (∀ items, (watchStep cfg dayOfWeek seconds name st (some items)).1.checkTime =
      (watchStep cfg dayOfWeek seconds name st none).1.checkTime) :=
  ⟨rfl, rfl, rfl, rfl, fun _ => rfl⟩

/-! ### URL filename extraction -/

theorem lastSlashIndex_eq_none_iff (l : List Char) : lastSlashIndex l = none ↔ '/' ∉ l := by
  induction l with
  | nil => simp [lastSlashIndex]
  | cons c rest ih =>
    simp only [lastSlashIndex]
    rcases h : lastSlashIndex rest with _ | i
    · have hr : '/' ∉ rest := ih.mp h
      by_cases hc : c = '/'
      · subst hc
        simp
      · constructor
        · intro _ hmem
          rcases List.mem_cons.mp hmem with h1 | h1
          · exact hc h1.symm
          · exact hr h1
        · intro _
          show (if c = '/' then some 0 else none) = none
          exact if_neg hc
    · have hr : '/' ∈ rest := by
        by_contra hmem
        rw [ih.mpr hmem] at h
        cases h
      simp [hr]

theorem lastSlashIndex_some_spec (l : List Char) (i : Nat) (h : lastSlashIndex l = some i) :
    ∃ pre suf, l = pre ++ '/' :: suf ∧ pre.length = i ∧ '/' ∉ suf := by
  induction l generalizing i with
  | nil => cases h
  | cons c rest ih =>
    rw [lastSlashIndex] at h
    rcases h' : lastSlashIndex rest with _ | j <;> rw [h'] at h
    · by_cases hc : c = '/'
      · rw [if_pos hc] at h
        cases h
        subst hc
        exact ⟨[], rest, rfl, rfl, (lastSlashIndex_eq_none_iff rest).mp h'⟩
      · rw [if_neg hc] at h
        cases h
    · cases h
      obtain ⟨pre, suf, hl, hlen, hsuf⟩ := ih j h'
      exact ⟨c :: pre, suf, by rw [hl, List.cons_append], by simp [hlen], hsuf⟩

theorem drop_after_last_slash (pre suf : List Char) :
    (pre ++ '/' :: suf).drop (pre.length + 1) = suf := by
  have h1 : pre ++ '/' :: suf = (pre ++ ['/']) ++ suf := by simp
  have h2 : (pre ++ ['/']).length = pre.length + 1 := by simp
  rw [h1, ← h2, List.drop_left]

/-- Claim C8: the filename-extraction stage of `downloadUrl` fails — before any
network or filesystem operation — exactly when the URL contains no `'/'` or ends
with `'/'`; otherwise the filename is the non-empty trailing segment after the last
`'/'` of the URL. -/
theorem downloadUrl_spec (url : List Char) :
    ((∃ e, downloadUrl url = Except.error e) ↔ ('/' ∉ url ∨ url.getLast? = some '/')) ∧
    (∀ fn, downloadUrl url = Except.ok fn →
      ∃ pre, url = pre ++ '/' :: fn ∧ '/' ∉ fn ∧ fn ≠ []) := by
  rcases h : lastSlashIndex url with _ | i
  · have hn : '/' ∉ url := (lastSlashIndex_eq_none_iff url).mp h
    constructor
    · simp only [downloadUrl, h]
      exact ⟨fun _ => Or.inl hn, fun _ => ⟨"malformed url (no slash!?)", rfl⟩⟩
    · intro fn hfn
      simp only [downloadUrl, h] at hfn
      cases hfn
  · obtain ⟨pre, suf, hurl, hlen, hsuf⟩ := lastSlashIndex_some_spec url i h
    have hdrop : url.drop (i + 1) = suf := by
      rw [hurl, ← hlen]
      exact drop_after_last_slash pre suf
    by_cases hnil : suf = []
    · subst hnil
      have hlast : url.getLast? = some '/' := by
        rw [hurl]
        exact List.getLast?_concat pre
      constructor
      · simp only [downloadUrl, h, hdrop]
        exact ⟨fun _ => Or.inr hlast, fun _ => ⟨"malformed url (no filename)", by simp⟩⟩
      · intro fn hfn
        simp only [downloadUrl, h, hdrop] at hfn
        simp at hfn
    · have hok : downloadUrl url = Except.ok suf := by
        simp only [downloadUrl, h, hdrop]
        rw [if_neg (by simpa [List.length_eq_zero] using hnil)]
      constructor
      · constructor
        · rintro ⟨e, he⟩
          rw [hok] at he
          cases he
        · rintro (hmem | hlast)
          · exact absurd (by rw [hurl]; simp : '/' ∈ url) hmem
          · exfalso
            have hgl : url.getLast? = suf.getLast? := by
              rw [hurl, ← List.singleton_append, ← List.append_assoc]
              exact List.getLast?_append_of_ne_nil _ hnil
            rw [hgl] at hlast
            obtain ⟨hne, hsl⟩ := List.mem_getLast?_eq_getLast (Option.mem_def.mpr hlast)
            exact hsuf (hsl ▸ List.getLast_mem hne)
      · intro fn hfn
        rw [hok] at hfn
        cases hfn
        exact ⟨pre, hurl, hsuf, hnil⟩

/-! ### Concrete witnesses -/

theorem isRapid_window_iff_witness :
    isRapid ⟨3600, 60, 3600⟩ 88200 1 0 = true ∧
    isRapid ⟨3600, 60, 3600⟩ (lastRapidStartTime 88200 1 0) 1 0 = true ∧
    isRapid ⟨3600, 60, 3600⟩ (lastRapidStartTime 88200 1 0 + 3600) 1 0 = false := by
  have h := isRapid_window_iff ⟨3600, 60, 3600⟩ 88200 1 0 (by decide) (by decide) (by decide)
    (by decide) (by decide) (by decide)
  exact ⟨h.1.mpr (by decide), h.2.1, h.2.2⟩

theorem lastRapidStartTime_spec_witness :
    lastRapidStartTime 88200 1 0 ≤ 88200 ∧
    (88200 : Int) < lastRapidStartTime 88200 1 0 + 7 * 86400 ∧
    weekday (lastRapidStartTime 88200 1 0) = 1 ∧
    lastRapidStartTime 88200 1 0 % 86400 = 0 ∧
    (86400 : Int) ≤ lastRapidStartTime 88200 1 0 ∧
    nextRapidStartTime 88200 1 0 = lastRapidStartTime 88200 1 0 + 7 * 86400 := by
  have h := lastRapidStartTime_spec 88200 1 0 (by decide) (by decide) (by decide) (by decide)
  exact ⟨h.1, h.2.1, h.2.2.1, h.2.2.2.1,
    h.2.2.2.2.1 86400 (by decide) (by decide) (by decide), h.2.2.2.2.2⟩

theorem firstCheckTime_grid_witness :
    firstCheckTime ⟨3600, 60, 3600⟩ 70 0 0 = firstCheckTime ⟨3600, 60, 3600⟩ 100 0 0 :=
  (firstCheckTime_grid ⟨3600, 60, 3600⟩ 0 0 70 100 (by decide) (by decide) (by decide)).2

theorem newItems_takeWhile_witness :
    newItems [⟨"A", "a"⟩, ⟨"B", "b"⟩, ⟨"C", "c"⟩] "Z" =
      [⟨"A", "a"⟩, ⟨"B", "b"⟩, ⟨"C", "c"⟩] :=
  (newItems_takeWhile [⟨"A", "a"⟩, ⟨"B", "b"⟩, ⟨"C", "c"⟩] "Z").2 (by decide)

theorem processItems_titleEvent_witness :
    (processItems "f" [⟨"Ep5", "l5"⟩, ⟨"Ep4", "l4"⟩] "Ep4").2.1 = "Ep5" ∧
    (processItems "f" [⟨"Ep5", "l5"⟩, ⟨"Ep4", "l4"⟩] "Ep4").2.2 = [⟨"f", "Ep5"⟩] :=
  (processItems_titleEvent "f" [⟨"Ep5", "l5"⟩, ⟨"Ep4", "l4"⟩] "Ep4").1
    ⟨"Ep5", "l5"⟩ [⟨"Ep4", "l4"⟩] rfl (by decide)

theorem downloadUrl_spec_witness :
    (∃ e, downloadUrl ['a', 'b'] = Except.error e) ∧
    (∃ pre, ['a', '/', 'c'] = pre ++ '/' :: ['c'] ∧ '/' ∉ ['c'] ∧ (['c'] : List Char) ≠ []) :=
  ⟨(downloadUrl_spec ['a', 'b']).1.mpr (Or.inl (by decide)),
    (downloadUrl_spec ['a', '/', 'c']).2 ['c'] rfl⟩

theorem scheduler_progress_witness :
    (5000 : Int) < nextCheckTime ⟨3600, 60, 3600⟩ 5000 0 0 ∧
    (5000 : Int) ≤ firstCheckTime ⟨3600, 60, 3600⟩ 5000 0 0 :=
  scheduler_progress ⟨3600, 60, 3600⟩ 5000 0 0 (by decide) (by decide) (by decide) (by decide)
    (by decide) (by decide) (by decide)

end RssDownload
